import Mathlib

/-!
Verification development for the `scan_info_company` repository
(`src/business_scraper/`): a shallow embedding in Lean 4 of the pure
extraction, deduplication, pagination and validation logic of the three
source connectors (Google Maps, DuckDuckGo, HSCTVN) and the Gemini
adapter, together with proofs and refutations of the frozen claims.

Texts are modelled as `List Char`.  Python regular expressions are
embedded by a small backtracking matcher (`RE` / `parses` / `findall`)
specialised to the concrete, fixed patterns appearing in the source;
alternation order, greediness and the non-overlapping left-to-right
`findall` scan follow CPython `re` semantics.  The character class `\s`
is modelled by the ASCII whitespace characters (the inputs fed to these
patterns are scraped ASCII/Vietnamese page text, and the claims only
involve such characters).
-/

/-- ASCII whitespace, modelling the Python regex class `\s`. -/
def isPySpace (c : Char) : Bool :=
  c = ' ' || c = '\t' || c = '\n' || c = '\r' || c = '\x0b' || c = '\x0c'

/-- The separator class `[\s.\-]` used by the phone patterns and by the
phone normalisation `re.sub(r'[\s\.\-]', '', phone)` in
`duckduckgo_scraper.py`. -/
def isSepChar (c : Char) : Bool :=
  isPySpace c || c = '.' || c = '-'

/-- A decimal digit, the regex class `\d` (ASCII). -/
def isDigitChar (c : Char) : Bool :=
  '0' ≤ c && c ≤ '9'

/-- The regex class `[1-9]`. -/
def isNonZeroDigit (c : Char) : Bool :=
  '1' ≤ c && c ≤ '9'

/-- Regular expressions, restricted to the constructs used by the
patterns of the repository: character classes, literal strings,
ordered alternation and concatenation.  Option and bounded repetition
are derived forms (`optRE`, `reN`, `reUpto`, `reRange`). -/
inductive RE : Type
  | cls (p : Char → Bool) : RE
  | str (s : List Char) : RE
  | alt (a b : RE) : RE
  | seq (a b : RE) : RE

/-- All parses of a regular expression against a prefix of the input,
in backtracking preference order (first element = the match Python
`re` would produce).  Each result is the pair (consumed, rest). -/
def parses : RE → List Char → List (List Char × List Char)
  | .cls _, [] => []
  | .cls p, c :: cs => if p c then [([c], cs)] else []
  | .str s, cs =>
    if cs.take s.length = s then [(s, cs.drop s.length)] else []
  | .alt a b, cs => parses a cs ++ parses b cs
  | .seq a b, cs =>
    (parses a cs).flatMap fun pr =>
      (parses b pr.2).map fun qr => (pr.1 ++ qr.1, qr.2)

/-- `X?` (greedy): try `X` first, then the empty match. -/
def optRE (a : RE) : RE := .alt a (.str [])

/-- `X{n}`: exactly `n` repetitions. -/
def reN (a : RE) : Nat → RE
  | 0 => .str []
  | n + 1 => .seq a (reN a n)

/-- `X{0,n}` (greedy): longer repetitions preferred. -/
def reUpto (a : RE) : Nat → RE
  | 0 => .str []
  | n + 1 => .alt (.seq a (reUpto a n)) (.str [])

/-- `X{lo,hi}` (greedy). -/
def reRange (a : RE) (lo hi : Nat) : RE :=
  .seq (reN a lo) (reUpto a (hi - lo))

/-- Left-to-right non-overlapping scan, as in Python `re.findall`:
take the preferred match at the current position, else advance one
character.  `fuel` bounds the recursion; `findall` supplies enough. -/
def findallAux (pat : RE) : Nat → List Char → List (List Char)
  | 0, _ => []
  | fuel + 1, cs =>
    match (parses pat cs).head? with
    | some (m, r) =>
      if m.isEmpty then
        match cs with
        | [] => []
        | _ :: t => findallAux pat fuel t
      else m :: findallAux pat fuel r
    | none =>
      match cs with
      | [] => []
      | _ :: t => findallAux pat fuel t

/-- All matches of `pat` in `cs`, Python `re.findall` semantics. -/
def findall (pat : RE) (cs : List Char) : List (List Char) :=
  findallAux pat (cs.length + 1) cs

/-- Does `pat` match the whole of `m`? -/
def fullmatch (pat : RE) (m : List Char) : Bool :=
  (parses pat m).any fun pr => pr.2.isEmpty

/-- The class `\d` as a regular expression. -/
def digitC : RE := .cls isDigitChar

/-- The class `[1-9]` as a regular expression. -/
def nzC : RE := .cls isNonZeroDigit

/-- The class `[\s.\-]` as a regular expression. -/
def sepC : RE := .cls isSepChar

/-- Literal string pattern. -/
def strR (s : String) : RE := .str s.toList

/-- The alternation `(?:\+84|84|0)` opening the first phone pattern of
`DuckDuckGoScraper` (alternatives tried in source order). -/
def vnPrefix : RE := .alt (strR "+84") (.alt (strR "84") (strR "0"))

/-- The part of the first phone pattern after the country prefix:
`[\s\.\-]?[1-9]\d{1,2}[\s\.\-]?\d{3}[\s\.\-]?\d{3,4}`. -/
def phonePat1Body : RE :=
  .seq (optRE sepC)
    (.seq (.seq nzC (reRange digitC 1 2))
      (.seq (optRE sepC)
        (.seq (reN digitC 3)
          (.seq (optRE sepC) (reRange digitC 3 4)))))

/-- `duckduckgo_scraper.py:443` — the pattern
`(?:\+84|84|0)[\s\.\-]?[1-9]\d{1,2}[\s\.\-]?\d{3}[\s\.\-]?\d{3,4}`. -/
def phonePat1 : RE := .seq vnPrefix phonePat1Body

/-- The digit tail `[1-9]\d{8,9}` shared by the second and third
phone patterns. -/
def phoneBody23 : RE := .seq nzC (reRange digitC 8 9)

/-- `duckduckgo_scraper.py:444` — the pattern `0[1-9]\d{8,9}`. -/
def phonePat2 : RE := .seq (strR "0") phoneBody23

/-- `duckduckgo_scraper.py:445` — the pattern `\+84[1-9]\d{8,9}`. -/
def phonePat3 : RE := .seq (strR "+84") phoneBody23

/-- The ordered pattern list of `DuckDuckGoScraper._extract_all_phones`. -/
def phonePats : List RE := [phonePat1, phonePat2, phonePat3]

/-- `re.sub(r'[\s\.\-]', '', phone)` — drop separators. -/
def removeSeps (m : List Char) : List Char :=
  m.filter fun c => !(isSepChar c)

/-- The dedup-and-filter loop body of
`DuckDuckGoScraper._extract_all_phones` (lines 448-456): keep a
normalised match when it is unseen and at least 10 characters long. -/
def phoneDedup : List (List Char) → List (List Char) → List (List Char)
  | [], _ => []
  | m :: rest, seen =>
    if !(seen.contains m) && 10 ≤ m.length then
      m :: phoneDedup rest (m :: seen)
    else
      phoneDedup rest seen

/-- `DuckDuckGoScraper._extract_all_phones` (lines 436-458): run the
three patterns in order over the whole text, normalise each match,
deduplicate, and keep matches of normalised length at least 10. -/
def extractAllPhones (t : List Char) : List (List Char) :=
  phoneDedup ((phonePats.flatMap fun p => findall p t).map removeSeps) []

/-- The suffixes of a list, in position order (whole list first). -/
def suffixesOf : List Char → List (List Char)
  | [] => [[]]
  | l@(_ :: t) => l :: suffixesOf t

/-- The prefixes of a list, shortest first. -/
def prefixesOf : List Char → List (List Char)
  | [] => [[]]
  | c :: t => [] :: (prefixesOf t).map (c :: ·)

/-- Every contiguous substring, enumerated by start position and then
by length — the order in which occurrences are "first seen" when
reading the text left to right. -/
def substrsOf (t : List Char) : List (List Char) :=
  (suffixesOf t).flatMap prefixesOf

/-- A string is a valid Vietnamese phone occurrence in the sense of
the repository itself: it is fully matched by one of the three phone
patterns and its normalised form has at least 10 characters (the
acceptance test of `_extract_all_phones`). -/
def validPhone (s : List Char) : Bool :=
  (phonePats.any fun p => fullmatch p s) && 10 ≤ (removeSeps s).length

/-- Deduplication keeping the first occurrence of each value. -/
def dedupFirst : List (List Char) → List (List Char) → List (List Char)
  | [], _ => []
  | x :: xs, seen =>
    if seen.contains x then dedupFirst xs seen
    else x :: dedupFirst xs (x :: seen)

/-- The distinct valid phone numbers contained in a text, normalised,
in first-seen order of appearance: the reference value against which
the claim about `extractPhones` is stated. -/
def distinctValidPhones (t : List Char) : List (List Char) :=
  dedupFirst (((substrsOf t).filter validPhone).map removeSeps) []

/-- The claim on `extractPhones` as the spec states it: for every text
the extractor returns exactly the distinct valid phone values of the
text (exactly `k` entries, no duplicate normalised values, first-seen
order). -/
def phonesClaim (t : List Char) : Prop :=
  extractAllPhones t = distinctValidPhones t

/-- A parse splits the input: the consumed part is a prefix. -/
theorem parses_split : ∀ {e : RE} {cs x r : List Char},
    (x, r) ∈ parses e cs → cs = x ++ r := by
  intro e
  induction e with
  | cls p =>
    intro cs x r h
    match cs with
    | [] => simp [parses] at h
    | c :: cs' =>
      simp only [parses] at h
      split at h <;> simp_all
  | str s =>
    intro cs x r h
    simp only [parses] at h
    split at h
    · rename_i hp
      simp only [List.mem_singleton, Prod.mk.injEq] at h
      obtain ⟨hx, hr⟩ := h
      subst hx; subst hr
      conv_lhs => rw [← List.take_append_drop x.length cs]
      rw [hp]
    · simp at h
  | alt a b iha ihb =>
    intro cs x r h
    simp only [parses, List.mem_append] at h
    rcases h with h | h
    · exact iha h
    · exact ihb h
  | seq a b iha ihb =>
    intro cs x r h
    simp only [parses, List.mem_flatMap, List.mem_map] at h
    obtain ⟨pr, hpr, qr, hqr, heq⟩ := h
    have h1 := iha hpr
    have h2 := ihb hqr
    obtain ⟨he1, he2⟩ := Prod.mk.injEq .. ▸ heq
    subst he1; subst he2
    rw [h1, h2, List.append_assoc]

/-- A parse only depends on the consumed prefix: the rest of the input
can be replaced arbitrarily. -/
theorem parses_extend : ∀ {e : RE} {cs x r r' : List Char},
    (x, r) ∈ parses e cs → (x, r') ∈ parses e (x ++ r') := by
  intro e
  induction e with
  | cls p =>
    intro cs x r r' h
    match cs with
    | [] => simp [parses] at h
    | c :: cs' =>
      simp only [parses] at h
      split at h
      · rename_i hc
        simp only [List.mem_singleton, Prod.mk.injEq] at h
        obtain ⟨hx, hr⟩ := h
        subst hx
        simp [parses, hc]
      · simp at h
  | str s =>
    intro cs x r r' h
    simp only [parses] at h
    split at h
    · simp only [List.mem_singleton, Prod.mk.injEq] at h
      obtain ⟨hx, hr⟩ := h
      subst hx
      simp [parses, List.take_left, List.drop_left]
    · simp at h
  | alt a b iha ihb =>
    intro cs x r r' h
    simp only [parses, List.mem_append] at h
    rcases h with h | h
    · exact List.mem_append.mpr (Or.inl (iha h))
    · exact List.mem_append.mpr (Or.inr (ihb h))
  | seq a b iha ihb =>
    intro cs x r r' h
    simp only [parses, List.mem_flatMap, List.mem_map] at h
    obtain ⟨⟨x1, m1⟩, hpr, ⟨x2, r2⟩, hqr, heq⟩ := h
    simp only [Prod.mk.injEq] at heq
    obtain ⟨he1, he2⟩ := heq
    subst he1; subst he2
    have hsplit := parses_split hqr
    subst hsplit
    have h1 := @iha _ _ _ (x2 ++ r') hpr
    have h2 := @ihb _ _ _ r' hqr
    simp only [parses, List.mem_flatMap, List.mem_map]
    refine ⟨(x1, x2 ++ r'), ?_, (x2, r'), h2, rfl⟩
    rw [List.append_assoc]
    exact h1

/-- Syntactic bound on the characters a regular expression can
consume. -/
inductive REChars (P : Char → Prop) : RE → Prop
  | cls {q : Char → Bool} : (∀ c, q c = true → P c) → REChars P (.cls q)
  | str {s : List Char} : (∀ c ∈ s, P c) → REChars P (.str s)
  | alt {a b : RE} : REChars P a → REChars P b → REChars P (.alt a b)
  | seq {a b : RE} : REChars P a → REChars P b → REChars P (.seq a b)

/-- Characters consumed by a parse satisfy the syntactic bound. -/
theorem parses_chars {P : Char → Prop} {e : RE} (he : REChars P e) :
    ∀ {cs x r : List Char}, (x, r) ∈ parses e cs → ∀ c ∈ x, P c := by
  induction he with
  | cls hq =>
    intro cs x r h c hc
    match cs with
    | [] => simp [parses] at h
    | d :: cs' =>
      simp only [parses] at h
      split at h
      · rename_i hd
        simp only [List.mem_singleton, Prod.mk.injEq] at h
        obtain ⟨hx, _⟩ := h
        subst hx
        simp only [List.mem_singleton] at hc
        subst hc
        exact hq c hd
      · simp at h
  | str hs =>
    intro cs x r h c hc
    simp only [parses] at h
    split at h
    · simp only [List.mem_singleton, Prod.mk.injEq] at h
      obtain ⟨hx, _⟩ := h
      subst hx
      exact hs c hc
    · simp at h
  | alt _ _ iha ihb =>
    intro cs x r h c hc
    simp only [parses, List.mem_append] at h
    rcases h with h | h
    · exact iha h c hc
    · exact ihb h c hc
  | seq _ _ iha ihb =>
    intro cs x r h c hc
    simp only [parses, List.mem_flatMap, List.mem_map] at h
    obtain ⟨pr, hpr, qr, hqr, heq⟩ := h
    obtain ⟨he1, _⟩ := Prod.mk.injEq .. ▸ heq
    subst he1
    rcases List.mem_append.mp hc with hc | hc
    · exact iha hpr c hc
    · exact ihb hqr c hc

theorem rechars_reN {P : Char → Prop} {a : RE} (ha : REChars P a) :
    ∀ n, REChars P (reN a n) := by
  intro n
  induction n with
  | zero => exact .str (by simp)
  | succ n ih => exact .seq ha ih

theorem rechars_reUpto {P : Char → Prop} {a : RE} (ha : REChars P a) :
    ∀ n, REChars P (reUpto a n) := by
  intro n
  induction n with
  | zero => exact .str (by simp)
  | succ n ih => exact .alt (.seq ha ih) (.str (by simp))

theorem rechars_reRange {P : Char → Prop} {a : RE} (ha : REChars P a)
    (lo hi : Nat) : REChars P (reRange a lo hi) :=
  .seq (rechars_reN ha lo) (rechars_reUpto ha (hi - lo))

theorem rechars_optRE {P : Char → Prop} {a : RE} (ha : REChars P a) :
    REChars P (optRE a) :=
  .alt ha (.str (by simp))

theorem headq_mem {α : Type} {l : List α} {a : α} (h : l.head? = some a) :
    a ∈ l := by
  cases l <;> simp_all

theorem contains_true_mem {l : List (List Char)} {x : List Char}
    (h : l.contains x = true) : x ∈ l := by
  simpa [List.contains, List.elem_iff] using h

theorem contains_false_mem {l : List (List Char)} {x : List Char}
    (h : l.contains x = false) : x ∉ l := by
  intro hc
  rw [List.contains, (List.elem_iff).mpr hc] at h
  cases h

/-- Every `findall` match occurs contiguously in the input and fully
matches the pattern. -/
theorem findall_occurs {pat : RE} : ∀ {fuel : Nat} {cs m : List Char},
    m ∈ findallAux pat fuel cs →
    (∃ pre post, cs = pre ++ m ++ post) ∧ fullmatch pat m = true := by
  intro fuel
  induction fuel with
  | zero => intro cs m h; simp [findallAux] at h
  | succ fuel ih =>
    intro cs m h
    rcases hh : (parses pat cs).head? with _ | ⟨m₀, r⟩
    · cases cs with
      | nil => simp [findallAux, hh] at h
      | cons c t =>
        simp only [findallAux, hh] at h
        obtain ⟨⟨pre, post, hocc⟩, hfm⟩ := ih h
        exact ⟨⟨c :: pre, post, by rw [hocc]; rfl⟩, hfm⟩
    · have hmem := headq_mem hh
      have hsplit := parses_split hmem
      by_cases hm0 : m₀.isEmpty = true
      · cases cs with
        | nil => simp [findallAux, hh, hm0] at h
        | cons c t =>
          simp only [findallAux, hh, hm0, if_true] at h
          obtain ⟨⟨pre, post, hocc⟩, hfm⟩ := ih h
          exact ⟨⟨c :: pre, post, by rw [hocc]; rfl⟩, hfm⟩
      · simp only [findallAux, hh] at h
        rw [if_neg hm0] at h
        rcases List.mem_cons.mp h with h | h
        · subst h
          refine ⟨⟨[], r, by simpa using hsplit⟩, ?_⟩
          have hfull : (m, []) ∈ parses pat (m ++ []) := parses_extend hmem
          rw [List.append_nil] at hfull
          simp only [fullmatch, List.any_eq_true]
          exact ⟨(m, []), hfull, by simp⟩
        · obtain ⟨⟨pre, post, hocc⟩, hfm⟩ := ih h
          refine ⟨⟨m₀ ++ pre, post, ?_⟩, hfm⟩
          rw [hsplit, hocc]
          simp [List.append_assoc]

theorem mem_suffixesOf : ∀ (pre rest : List Char),
    rest ∈ suffixesOf (pre ++ rest) := by
  intro pre
  induction pre with
  | nil =>
    intro rest
    match rest with
    | [] => simp [suffixesOf]
    | c :: t => simp [suffixesOf]
  | cons c pre ih =>
    intro rest
    simp only [List.cons_append, suffixesOf]
    exact List.mem_cons.mpr (Or.inr (ih rest))

theorem mem_prefixesOf : ∀ (m post : List Char),
    m ∈ prefixesOf (m ++ post) := by
  intro m
  induction m with
  | nil =>
    intro post
    match post with
    | [] => simp [prefixesOf]
    | c :: t => simp [prefixesOf]
  | cons c m ih =>
    intro post
    simp only [List.cons_append, prefixesOf]
    exact List.mem_cons.mpr (Or.inr (List.mem_map.mpr ⟨m, ih post, rfl⟩))

/-- Every contiguous occurrence is enumerated by `substrsOf`. -/
theorem mem_substrsOf {m pre post t : List Char} (h : t = pre ++ m ++ post) :
    m ∈ substrsOf t := by
  subst h
  simp only [substrsOf, List.mem_flatMap]
  exact ⟨m ++ post, by rw [List.append_assoc]; exact mem_suffixesOf pre _,
    mem_prefixesOf m post⟩

theorem phoneDedup_mem : ∀ {ms seen : List (List Char)} {p : List Char},
    p ∈ phoneDedup ms seen → p ∈ ms ∧ 10 ≤ p.length ∧ p ∉ seen := by
  intro ms
  induction ms with
  | nil => intro seen p h; simp [phoneDedup] at h
  | cons m rest ih =>
    intro seen p h
    simp only [phoneDedup] at h
    split at h
    · rename_i hcond
      simp only [Bool.and_eq_true, Bool.not_eq_true',
        decide_eq_true_eq] at hcond
      rcases List.mem_cons.mp h with h | h
      · subst h
        exact ⟨List.mem_cons_self .., hcond.2, contains_false_mem hcond.1⟩
      · obtain ⟨h1, h2, h3⟩ := ih h
        exact ⟨List.mem_cons_of_mem _ h1, h2,
          fun hc => h3 (List.mem_cons_of_mem _ hc)⟩
    · obtain ⟨h1, h2, h3⟩ := ih h
      exact ⟨List.mem_cons_of_mem _ h1, h2, h3⟩

theorem phoneDedup_nodup : ∀ (ms seen : List (List Char)),
    (phoneDedup ms seen).Nodup := by
  intro ms
  induction ms with
  | nil => intro seen; simp [phoneDedup]
  | cons m rest ih =>
    intro seen
    simp only [phoneDedup]
    split
    · refine List.nodup_cons.mpr ⟨?_, ih _⟩
      intro hc
      obtain ⟨_, _, h3⟩ := phoneDedup_mem hc
      exact h3 (List.mem_cons_self ..)
    · exact ih _

theorem dedupFirst_mem : ∀ {l seen : List (List Char)} {x : List Char},
    x ∈ dedupFirst l seen → x ∈ l ∧ x ∉ seen := by
  intro l
  induction l with
  | nil => intro seen x h; simp [dedupFirst] at h
  | cons y ys ih =>
    intro seen x h
    simp only [dedupFirst] at h
    split at h
    · obtain ⟨h1, h2⟩ := ih h
      exact ⟨List.mem_cons_of_mem _ h1, h2⟩
    · rename_i hy
      have hy' : y ∉ seen :=
        contains_false_mem (Bool.not_eq_true _ ▸ (Bool.eq_false_iff.mpr hy))
      rcases List.mem_cons.mp h with h | h
      · subst h
        exact ⟨List.mem_cons_self .., hy'⟩
      · obtain ⟨h1, h2⟩ := ih h
        exact ⟨List.mem_cons_of_mem _ h1,
          fun hc => h2 (List.mem_cons_of_mem _ hc)⟩

theorem dedupFirst_nodup : ∀ (l seen : List (List Char)),
    (dedupFirst l seen).Nodup := by
  intro l
  induction l with
  | nil => intro seen; simp [dedupFirst]
  | cons y ys ih =>
    intro seen
    simp only [dedupFirst]
    split
    · exact ih _
    · refine List.nodup_cons.mpr ⟨?_, ih _⟩
      intro hc
      obtain ⟨_, h2⟩ := dedupFirst_mem hc
      exact h2 (List.mem_cons_self ..)

theorem dedupFirst_mem_of : ∀ {l seen : List (List Char)} {x : List Char},
    x ∈ l → x ∉ seen → x ∈ dedupFirst l seen := by
  intro l
  induction l with
  | nil => intro seen x h; simp at h
  | cons y ys ih =>
    intro seen x h hns
    simp only [dedupFirst]
    split
    · rename_i hy
      have hy' : y ∈ seen := contains_true_mem hy
      rcases List.mem_cons.mp h with h | h
      · subst h; exact absurd hy' hns
      · exact ih h hns
    · rcases List.mem_cons.mp h with h | h
      · subst h; exact List.mem_cons_self ..
      · by_cases hxy : x = y
        · subst hxy; exact List.mem_cons_self ..
        · refine List.mem_cons_of_mem _ (ih h ?_)
          intro hc
          rcases List.mem_cons.mp hc with hc | hc
          · exact hxy hc
          · exact hns hc

theorem nodup_subset_length_le {l₁ l₂ : List (List Char)}
    (h1 : l₁.Nodup) (hsub : l₁ ⊆ l₂) : l₁.length ≤ l₂.length :=
  (List.subperm_of_subset h1 hsub).length_le

/-- Every extracted phone is one of the distinct valid phone values
occurring in the text. -/
theorem extractAllPhones_sub (t : List Char) :
    ∀ p ∈ extractAllPhones t, p ∈ distinctValidPhones t := by
  intro p hp
  obtain ⟨hms, hlen, -⟩ := phoneDedup_mem hp
  obtain ⟨m, hm, rfl⟩ := List.mem_map.mp hms
  obtain ⟨pat, hpat, hfind⟩ := List.mem_flatMap.mp hm
  obtain ⟨⟨pre, post, hocc⟩, hfm⟩ := @findall_occurs pat _ _ _ hfind
  have hvalid : validPhone m = true := by
    simp only [validPhone, Bool.and_eq_true, List.any_eq_true,
      decide_eq_true_eq]
    exact ⟨⟨pat, hpat, hfm⟩, hlen⟩
  have hsub : m ∈ substrsOf t := mem_substrsOf hocc
  exact dedupFirst_mem_of
    (List.mem_map.mpr ⟨m, List.mem_filter.mpr ⟨hsub, hvalid⟩, rfl⟩)
    (List.not_mem_nil _)

/-- The text used to refute the exact-count/first-seen-order claim:
the unseparated run `6780987654321` lets the first pattern consume one
digit past the phone written with separators, so one valid phone is
merged away and another is emitted out of text order. -/
def phoneCexText : List Char := "0 912 345 6780987654321 0911111111".toList

/-- C3, counterexample.  On `phoneCexText` the extractor does not
return the distinct valid phone values of the text in first-seen
order: it returns 3 entries while the text contains 4 distinct valid
phone values, and the value first seen at position 13 is emitted after
the value first seen at position 24. -/
theorem extractPhones_claim_cex : ¬ phonesClaim phoneCexText := by
  unfold phonesClaim
  decide

/-- C3, amended.  For every input text, `extractPhones`
(`DuckDuckGoScraper._extract_all_phones`) returns at most `k` entries
when the text contains `k` distinct valid Vietnamese phone numbers,
with no duplicate normalised values, and every returned entry is one
of those `k` values; exact count `k` and first-seen order are not
guaranteed (adjacent or overlapping occurrences can merge and
reorder). -/
theorem extractPhones_amended (t : List Char) :
    (extractAllPhones t).Nodup ∧
    (extractAllPhones t).length ≤ (distinctValidPhones t).length ∧
    ∀ p ∈ extractAllPhones t, p ∈ distinctValidPhones t := by
  refine ⟨phoneDedup_nodup _ _, ?_, extractAllPhones_sub t⟩
  exact nodup_subset_length_le (phoneDedup_nodup _ _)
    (fun p hp => extractAllPhones_sub t p hp)

/-- Witness for `extractPhones_amended` at a concrete text and entry. -/
theorem extractPhones_amended_witness :
    ("09123456780".toList ∈ extractAllPhones phoneCexText) ∧
    "09123456780".toList ∈ distinctValidPhones phoneCexText :=
  ⟨by decide, (extractPhones_amended phoneCexText).2.2 _ (by decide)⟩

/-- The normalised-phone shape claimed by the spec data model: digits
only, except for an optional leading plus sign. -/
def normalizedPhone (p : List Char) : Bool :=
  match p with
  | [] => false
  | c :: rest => if c = '+' then rest.all isDigitChar else (c :: rest).all isDigitChar

/-- A character consumed by the tail of a phone pattern: a digit or a
separator. -/
def digitOrSep (c : Char) : Prop :=
  isDigitChar c = true ∨ isSepChar c = true

theorem nz_imp_digit {c : Char} (h : isNonZeroDigit c = true) :
    isDigitChar c = true := by
  simp only [isNonZeroDigit, Bool.and_eq_true, decide_eq_true_eq] at h
  simp only [isDigitChar, Bool.and_eq_true, decide_eq_true_eq]
  exact ⟨le_trans (by decide) h.1, h.2⟩

theorem rechars_digitC : REChars digitOrSep digitC :=
  .cls fun _ h => Or.inl h

theorem rechars_nzC : REChars digitOrSep nzC :=
  .cls fun _ h => Or.inl (nz_imp_digit h)

theorem rechars_sepC : REChars digitOrSep sepC :=
  .cls fun _ h => Or.inr h

theorem rechars_pat1Body : REChars digitOrSep phonePat1Body :=
  .seq (rechars_optRE rechars_sepC)
    (.seq (.seq rechars_nzC (rechars_reRange rechars_digitC 1 2))
      (.seq (rechars_optRE rechars_sepC)
        (.seq (rechars_reN rechars_digitC 3)
          (.seq (rechars_optRE rechars_sepC)
            (rechars_reRange rechars_digitC 3 4)))))

theorem rechars_body23 : REChars digitOrSep phoneBody23 :=
  .seq rechars_nzC (rechars_reRange rechars_digitC 8 9)

theorem parses_seq_decomp {a b : RE} {cs x r : List Char}
    (h : (x, r) ∈ parses (.seq a b) cs) :
    ∃ x1 x2 r1, x = x1 ++ x2 ∧ (x1, r1) ∈ parses a cs ∧
      (x2, r) ∈ parses b r1 := by
  simp only [parses, List.mem_flatMap, List.mem_map] at h
  obtain ⟨⟨x1, m1⟩, hpr, ⟨x2, r2⟩, hqr, heq⟩ := h
  simp only [Prod.mk.injEq] at heq
  obtain ⟨he1, he2⟩ := heq
  exact ⟨x1, x2, m1, he1.symm, hpr, he2 ▸ hqr⟩

theorem parses_str_eq {s cs x r : List Char}
    (h : (x, r) ∈ parses (.str s) cs) : x = s := by
  simp only [parses] at h
  split at h
  · simp only [List.mem_singleton, Prod.mk.injEq] at h
    exact h.1
  · simp at h

theorem vnPrefix_cases {cs x r : List Char}
    (h : (x, r) ∈ parses vnPrefix cs) :
    x = "+84".toList ∨ x = "84".toList ∨ x = "0".toList := by
  simp only [vnPrefix, parses, List.mem_append] at h
  rcases h with h | h | h
  · exact Or.inl (parses_str_eq h)
  · exact Or.inr (Or.inl (parses_str_eq h))
  · exact Or.inr (Or.inr (parses_str_eq h))

theorem removeSeps_all_digit {x : List Char}
    (h : ∀ c ∈ x, digitOrSep c) :
    (removeSeps x).all isDigitChar = true := by
  simp only [removeSeps, List.all_eq_true]
  intro c hc
  obtain ⟨hcx, hcs⟩ := List.mem_filter.mp hc
  rcases h c hcx with hd | hs
  · exact hd
  · rw [hs] at hcs
    simp at hcs

theorem all_digit_cons {c : Char} {l : List Char}
    (hc : isDigitChar c = true) (hl : l.all isDigitChar = true) :
    (c :: l).all isDigitChar = true := by
  simp [List.all_cons, hc, hl]

theorem normalizedPhone_plus {rest : List Char}
    (h : rest.all isDigitChar = true) :
    normalizedPhone ('+' :: rest) = true := by
  simp [normalizedPhone, h]

theorem normalizedPhone_of_all_digit {c : Char} {rest : List Char}
    (h : (c :: rest).all isDigitChar = true) (hc : c ≠ '+') :
    normalizedPhone (c :: rest) = true := by
  simp only [normalizedPhone, if_neg hc]
  exact h

/-- A full match of any of the three phone patterns, once separators
are removed, is digits with at most a leading plus. -/
theorem fullmatch_normalized {pat : RE} (hpat : pat ∈ phonePats)
    {m : List Char} (hfm : fullmatch pat m = true) :
    normalizedPhone (removeSeps m) = true := by
  simp only [fullmatch, List.any_eq_true] at hfm
  obtain ⟨⟨x, r⟩, hmem, hr⟩ := hfm
  simp only [List.isEmpty_iff] at hr
  subst hr
  have hx : m = x := by simpa using parses_split hmem
  subst hx
  simp only [phonePats, List.mem_cons, List.not_mem_nil, or_false] at hpat
  rcases hpat with hpat | hpat | hpat <;> subst hpat
  · obtain ⟨x1, x2, r1, hx, hpre, hbody⟩ := parses_seq_decomp hmem
    subst hx
    have hchars := parses_chars rechars_pat1Body hbody
    have hdigits : (removeSeps x2).all isDigitChar = true :=
      removeSeps_all_digit hchars
    rw [removeSeps, List.filter_append]
    rcases vnPrefix_cases hpre with h1 | h1 | h1 <;> subst h1
    · exact normalizedPhone_plus
        (all_digit_cons (by decide) (all_digit_cons (by decide) hdigits))
    · exact normalizedPhone_of_all_digit
        (all_digit_cons (by decide) (all_digit_cons (by decide) hdigits))
        (by decide)
    · exact normalizedPhone_of_all_digit
        (all_digit_cons (by decide) hdigits) (by decide)
  · obtain ⟨x1, x2, r1, hx, hpre, hbody⟩ := parses_seq_decomp hmem
    subst hx
    have h1 := parses_str_eq hpre
    subst h1
    have hchars := parses_chars rechars_body23 hbody
    have hdigits : (removeSeps x2).all isDigitChar = true :=
      removeSeps_all_digit hchars
    rw [removeSeps, List.filter_append]
    exact normalizedPhone_of_all_digit
      (all_digit_cons (by decide) hdigits) (by decide)
  · obtain ⟨x1, x2, r1, hx, hpre, hbody⟩ := parses_seq_decomp hmem
    subst hx
    have h1 := parses_str_eq hpre
    subst h1
    have hchars := parses_chars rechars_body23 hbody
    have hdigits : (removeSeps x2).all isDigitChar = true :=
      removeSeps_all_digit hchars
    rw [removeSeps, List.filter_append]
    exact normalizedPhone_plus
      (all_digit_cons (by decide) (all_digit_cons (by decide) hdigits))

/-- Phones produced by the Search-Result connector are normalised. -/
theorem extractAllPhones_normalized (t : List Char) :
    ∀ p ∈ extractAllPhones t, normalizedPhone p = true := by
  intro p hp
  obtain ⟨hms, _, -⟩ := phoneDedup_mem hp
  obtain ⟨m, hm, rfl⟩ := List.mem_map.mp hms
  obtain ⟨pat, hpat, hfind⟩ := List.mem_flatMap.mp hm
  obtain ⟨-, hfm⟩ := findall_occurs hfind
  exact fullmatch_normalized hpat hfm

/-- Case folding for `re.IGNORECASE` matching: ASCII letters plus the
upper-case Vietnamese letters occurring in the fixed pattern literals
of the repository. -/
def caseFold (c : Char) : Char :=
  if 'A' ≤ c && c ≤ 'Z' then Char.ofNat (c.toNat + 32)
  else if c = 'Đ' then 'đ'
  else if c = 'Ì' then 'ì'
  else if c = 'Ấ' then 'ấ'
  else if c = 'Ồ' then 'ồ'
  else if c = 'Ơ' then 'ơ'
  else if c = 'Ô' then 'ô'
  else if c = 'Ệ' then 'ệ'
  else if c = 'Ạ' then 'ạ'
  else c

/-- Case-insensitive literal match; returns the rest of the input. -/
def matchLitCI : List Char → List Char → Option (List Char)
  | [], cs => some cs
  | _ :: _, [] => none
  | p :: ps, c :: cs =>
    if caseFold c = caseFold p then matchLitCI ps cs else none

/-- `re.search` position scan: try the matcher at every position, left
to right, including the end-of-input position. -/
def searchPos {α : Type} (f : List Char → Option α) : List Char → Option α
  | [] => f []
  | cs@(_ :: t) =>
    match f cs with
    | some a => some a
    | none => searchPos f t

/-- The character class `[0-9\s\-\+]` of the registry detail-page
phone pattern (`hsctvn_scraper.py:467`). -/
def isHsPhoneChar (c : Char) : Bool :=
  isDigitChar c || isPySpace c || c = '-' || c = '+'

/-- Python `str.strip()`. -/
def pyStrip (s : List Char) : List Char :=
  ((s.dropWhile isPySpace).reverse.dropWhile isPySpace).reverse

/-- `re.sub(r'\s+', '', phone)` — drop all whitespace. -/
def removeWs (s : List Char) : List Char :=
  s.filter fun c => !(isPySpace c)

/-- One-position matcher for `Điện thoại:\s*([0-9\s\-\+]+)`: the
literal, then greedy `\s*`, then the greedy capture group.  When only
whitespace (which also belongs to the group class) follows the
literal, `\s*` backtracks one character so that the group is
non-empty, exactly as the CPython engine resolves it. -/
def hsPhoneAt (cs : List Char) : Option (List Char) :=
  (matchLitCI "Điện thoại:".toList cs).bind fun r1 =>
    let w := r1.takeWhile isPySpace
    let rest := r1.dropWhile isPySpace
    let grp := rest.takeWhile isHsPhoneChar
    if grp.isEmpty then (w.getLast?).map fun c => [c] else some grp

/-- `HSCTVNScraper._scrape_detail_page` lines 467-470: search the body
text for `Điện thoại:\s*([0-9\s\-\+]+)`, strip the captured group, and
remove all whitespace (hyphens and plus signs are kept). -/
def hsDetailPhone (body : List Char) : Option (List Char) :=
  (searchPos hsPhoneAt body).map fun grp => removeWs (pyStrip grp)

/-- The character class `[\d\+\s\-\(\)]` of the Google Maps phone
validation (`scraper.py:265`). -/
def isGPhoneChar (c : Char) : Bool :=
  isDigitChar c || c = '+' || isPySpace c || c = '-' || c = '(' || c = ')'

/-- `re.search(r'[\d\+\s\-\(\)]{8,}', s)`: some position starts a run
of at least 8 phone-looking characters. -/
def hasPhoneRun : List Char → Bool
  | [] => false
  | cs@(_ :: t) =>
    (8 ≤ (cs.takeWhile isGPhoneChar).length) || hasPhoneRun t

/-- `GoogleMapsScraper._extract_details` lines 261-268: when the
clicked detail panel shows a non-empty phone text that looks like a
phone number, the displayed text is stored unchanged. -/
def gmapsPhoneField (phoneText : List Char) : Option (List Char) :=
  if !phoneText.isEmpty && hasPhoneRun phoneText then some phoneText
  else none

/-- A registry detail-page body on which the phone keeps its hyphens. -/
def hsPhoneCexBody : List Char :=
  "Mã số thuế: 4202041214\nĐiện thoại: 090-103-0676\nTrạng thái: Đang Hoạt Động".toList

/-- C9, counterexample.  The Registry connector extracts the phone
`090-103-0676` (removing whitespace only, so the hyphens survive) and
the Listing connector stores the display text `+84 369 626 262`
verbatim; neither is of the claimed normalised shape. -/
theorem phoneNormalization_claim_cex :
    hsDetailPhone hsPhoneCexBody = some "090-103-0676".toList ∧
    normalizedPhone "090-103-0676".toList = false ∧
    gmapsPhoneField "+84 369 626 262".toList =
      some "+84 369 626 262".toList ∧
    normalizedPhone "+84 369 626 262".toList = false := by
  refine ⟨by decide, by decide, by decide, by decide⟩

theorem removeWs_no_ws (s : List Char) :
    (removeWs s).all (fun c => !(isPySpace c)) = true := by
  simp only [removeWs, List.all_eq_true]
  intro c hc
  exact (List.mem_filter.mp hc).2

/-- C9, amended.  Only the Search-Result connector normalises phones
(digits with at most a leading plus, no separators); the Registry
connector merely removes whitespace, so its phones are
whitespace-free but may keep hyphens and plus signs; the Listing
connector stores the displayed phone text unchanged. -/
theorem phoneNormalization_amended :
    (∀ t : List Char, ∀ p ∈ extractAllPhones t, normalizedPhone p = true) ∧
    (∀ body p : List Char, hsDetailPhone body = some p →
      p.all (fun c => !(isPySpace c)) = true) ∧
    (∀ s p : List Char, gmapsPhoneField s = some p → p = s) := by
  refine ⟨extractAllPhones_normalized, ?_, ?_⟩
  · intro body p h
    simp only [hsDetailPhone, Option.map_eq_some'] at h
    obtain ⟨grp, -, rfl⟩ := h
    exact removeWs_no_ws _
  · intro s p h
    simp only [gmapsPhoneField] at h
    split at h
    · exact (Option.some.injEq .. ▸ h).symm
    · cases h

/-- Witness for `phoneNormalization_amended` at concrete inputs. -/
theorem phoneNormalization_amended_witness :
    ("0912345678".toList ∈ extractAllPhones "lh: 0912345678".toList ∧
      normalizedPhone "0912345678".toList = true) ∧
    (hsDetailPhone hsPhoneCexBody = some "090-103-0676".toList ∧
      ("090-103-0676".toList).all (fun c => !(isPySpace c)) = true) ∧
    (gmapsPhoneField "0369626262".toList = some "0369626262".toList ∧
      "0369626262".toList = "0369626262".toList) :=
  ⟨⟨by decide,
      phoneNormalization_amended.1 "lh: 0912345678".toList
        "0912345678".toList (by decide)⟩,
    ⟨by decide,
      phoneNormalization_amended.2.1 hsPhoneCexBody
        "090-103-0676".toList (by decide)⟩,
    ⟨by decide,
      phoneNormalization_amended.2.2 "0369626262".toList
        "0369626262".toList (by decide)⟩⟩

/-- Python truthiness of an optional string (`None` and the empty
string are falsy). -/
def optTruthy : Option (List Char) → Bool
  | Option.none => false
  | some s => !s.isEmpty

/-- Python `a or b` on strings. -/
def pyOr (a b : List Char) : List Char :=
  if a.isEmpty then b else a

/-- Python `str.lower()` restricted to the characters relevant here
(ASCII letters plus the Vietnamese letters of the fixed literals). -/
def pyLower (s : List Char) : List Char :=
  s.map caseFold

/-- Decimal representation of a natural number, for the f-string
`f"{base_name} #{idx + 1}"`. -/
def natToChars (n : Nat) : List Char :=
  (Nat.repr n).toList

/-- A candidate business record of the Search-Result connector: the
dict shape built in `DuckDuckGoScraper._extract_all_from_website`
(the constant `source` entry is omitted as it never varies). -/
structure DBiz where
  name : List Char
  phone : Option (List Char)
  email : Option (List Char)
  address : Option (List Char)
  website : List Char
  description : List Char
  deriving DecidableEq

/-- The static context of one search-result page: `title` and
`snippet` from the search-result dict (the `title` key is always
present, set at `duckduckgo_scraper.py:269`, so `dict.get` defaults
never fire), the page `url`, and `netloc` standing for
`urlparse(url).netloc`. -/
structure PageCtx where
  title : List Char
  snippet : List Char
  url : List Char
  netloc : List Char
  deriving DecidableEq

/-- `DuckDuckGoScraper._extract_all_from_website` lines 572-613 — the
assembly of candidate records from the extracted field lists: one
record per phone, pairing emails and addresses positionally, else a
single fallback record from the first email/address, else nothing.
The three list arguments are the outputs of `_extract_all_phones`,
`_extract_all_emails` and `_extract_all_addresses` on the page
content (lines 566-568). -/
def buildBusinesses (phones emails addrs : List (List Char))
    (ctx : PageCtx) : List DBiz :=
  if !phones.isEmpty then
    phones.enum.map fun ie =>
      let nm :=
        if phones.length = 1 then ctx.title
        else ctx.title ++ " #".toList ++ natToChars (ie.1 + 1)
      { name := pyOr nm ctx.netloc
        phone := some ie.2
        email := emails.get? ie.1
        address := addrs.get? ie.1
        website := ctx.url
        description := ctx.snippet }
  else if !emails.isEmpty || !addrs.isEmpty then
    [{ name := pyOr ctx.title ctx.netloc
       phone := Option.none
       email := emails.head?
       address := addrs.head?
       website := ctx.url
       description := ctx.snippet }]
  else []

/-- The per-run deduplication state of
`DuckDuckGoScraper._scrape_websites`: the `seen_phones` and
`seen_names` sets (lines 300-301). -/
structure SeenSt where
  phones : List (List Char)
  names : List (List Char)

/-- One deduplication decision of `_scrape_websites` (lines 323-342):
reject on an already-seen truthy phone, then on an already-seen
lowered-stripped name longer than 10 characters; on acceptance record
the truthy phone and the long name. -/
def admitOne (st : SeenSt) (b : DBiz) : Bool × SeenSt :=
  let name := pyStrip (pyLower b.name)
  let phoneDup :=
    match b.phone with
    | some p => !p.isEmpty && st.phones.contains p
    | Option.none => false
  if phoneDup then (false, st)
  else if !name.isEmpty && st.names.contains name && 10 < name.length then
    (false, st)
  else
    let phones' :=
      match b.phone with
      | some p => if !p.isEmpty then p :: st.phones else st.phones
      | Option.none => st.phones
    let names' :=
      if !name.isEmpty && 10 < name.length then name :: st.names
      else st.names
    (true, ⟨phones', names'⟩)

/-- The inner candidate loop of `_scrape_websites` (lines 318-344):
stop at the cap, route every candidate through the deduplicator,
append accepted ones. -/
def swInner (mr : Nat) : List DBiz → List DBiz → SeenSt → List DBiz × SeenSt
  | [], acc, st => (acc, st)
  | b :: rest, acc, st =>
    if mr ≤ acc.length then (acc, st)
    else
      let r := admitOne st b
      if r.1 then swInner mr rest (acc ++ [b]) r.2
      else swInner mr rest acc r.2

/-- The outer page loop of `_scrape_websites` (lines 303-353): stop at
the cap, otherwise feed the candidates of the next page through the
inner loop.  A page whose fetch or extraction fails contributes the
empty candidate list. -/
def swOuter (mr : Nat) : List (List DBiz) → List DBiz → SeenSt → List DBiz
  | [], acc, _ => acc
  | pg :: rest, acc, st =>
    if mr ≤ acc.length then acc
    else
      let r := swInner mr pg acc st
      swOuter mr rest r.1 r.2

/-- `DuckDuckGoScraper._scrape_websites` (lines 286-354) as a function
of the per-page candidate lists. -/
def scrapeWebsites (pages : List (List DBiz)) (mr : Nat) : List DBiz :=
  swOuter mr pages [] ⟨[], []⟩

/-- `hsctvn_scraper.py:193-201` — the effective page count: total
pages at 12 items per page, capped by `max_pages` when truthy, capped
by the pages needed to reach `max_results`. -/
def hsPagesNeeded (total : Nat) (maxPages : Option Nat) (mr : Nat) : Nat :=
  let tp := (total + 11) / 12
  let tp2 :=
    match maxPages with
    | some mp => if mp ≠ 0 then min tp mp else tp
    | Option.none => tp
  min tp2 ((mr + 11) / 12)

/-- The page loop of `HSCTVNScraper.scrape` (lines 212-222): before
each further page, stop when `max_results` records are accumulated;
otherwise fetch the page and append its records, counting the fetch. -/
def hsLoop {α : Type} (pages : Nat → List α) (mr : Nat) :
    List Nat → List α → Nat → List α × Nat
  | [], acc, fetched => (acc, fetched)
  | p :: rest, acc, fetched =>
    if mr ≤ acc.length then (acc, fetched)
    else hsLoop pages mr rest (acc ++ pages p) (fetched + 1)

/-- `HSCTVNScraper.scrape` (lines 168-231) as a function of the parsed
total, the caps and the per-page record lists; returns the records
and the number of pages fetched.  Page 1 is always fetched first (to
read the total); when the total is zero the run returns empty after
that single fetch; otherwise pages 2..pagesNeeded are fetched by the
loop and the result is trimmed to `max_results`. -/
def hsRun {α : Type} (total : Nat) (maxPages : Option Nat) (mr : Nat)
    (pages : Nat → List α) : List α × Nat :=
  if total = 0 then ([], 1)
  else
    let pn := hsPagesNeeded total maxPages mr
    let res := hsLoop pages mr (List.range' 2 (pn - 1)) (pages 1) 1
    (res.1.take mr, res.2)

/-- The regex class `[\d,\.]` of the total-count patterns. -/
def isNumGroupChar (c : Char) : Bool :=
  isDigitChar c || c = ',' || c = '.'

/-- `\s+`: at least one whitespace character, consumed greedily. -/
def matchWs1 : List Char → Option (List Char)
  | c :: rest =>
    if isPySpace c then some (rest.dropWhile isPySpace) else Option.none
  | [] => Option.none

/-- Greedy `([\d,\.]+)` followed by a literal tail whose first
character is outside the class, so the maximal run is the unique
backtracking resolution: returns (group, rest). -/
def takeNumRun (cs : List Char) : List Char × List Char :=
  (cs.takeWhile isNumGroupChar, cs.dropWhile isNumGroupChar)

/-- `hsctvn_scraper.py:262` — `tìm thấy\s+<label>([\d,\.]+)</label>\s+hồ sơ`
tried at one position. -/
def hsTotalP1 (cs : List Char) : Option (List Char) :=
  (matchLitCI "tìm thấy".toList cs).bind fun r1 =>
  (matchWs1 r1).bind fun r2 =>
  (matchLitCI "<label>".toList r2).bind fun r3 =>
    let nr := takeNumRun r3
    if nr.1.isEmpty then Option.none
    else
      (matchLitCI "</label>".toList nr.2).bind fun r5 =>
      (matchWs1 r5).bind fun r6 =>
      (matchLitCI "hồ sơ".toList r6).map fun _ => nr.1

/-- `hsctvn_scraper.py:263` — `tìm thấy\s+([\d,\.]+)\s+hồ sơ\s+công ty`. -/
def hsTotalP2 (cs : List Char) : Option (List Char) :=
  (matchLitCI "tìm thấy".toList cs).bind fun r1 =>
  (matchWs1 r1).bind fun r2 =>
    let nr := takeNumRun r2
    if nr.1.isEmpty then Option.none
    else
      (matchWs1 nr.2).bind fun r4 =>
      (matchLitCI "hồ sơ".toList r4).bind fun r5 =>
      (matchWs1 r5).bind fun r6 =>
      (matchLitCI "công ty".toList r6).map fun _ => nr.1

/-- `hsctvn_scraper.py:264` — `tìm thấy\s+([\d,\.]+)\s+hồ sơ`. -/
def hsTotalP3 (cs : List Char) : Option (List Char) :=
  (matchLitCI "tìm thấy".toList cs).bind fun r1 =>
  (matchWs1 r1).bind fun r2 =>
    let nr := takeNumRun r2
    if nr.1.isEmpty then Option.none
    else
      (matchWs1 nr.2).bind fun r4 =>
      (matchLitCI "hồ sơ".toList r4).map fun _ => nr.1

/-- `hsctvn_scraper.py:265` — `([\d,\.]+)\s+hồ sơ\s+công ty`. -/
def hsTotalP4 (cs : List Char) : Option (List Char) :=
  let nr := takeNumRun cs
  if nr.1.isEmpty then Option.none
  else
    (matchWs1 nr.2).bind fun r2 =>
    (matchLitCI "hồ sơ".toList r2).bind fun r3 =>
    (matchWs1 r3).bind fun r4 =>
    (matchLitCI "công ty".toList r4).map fun _ => nr.1

/-- The lazy middle part of the heading pattern:
`([\d,\.]+)\s+hồ sơ` at one position, returning the group and the
rest. -/
def hsTotalP5Num (cs : List Char) : Option (List Char × List Char) :=
  let nr := takeNumRun cs
  if nr.1.isEmpty then Option.none
  else
    (matchWs1 nr.2).bind fun r2 =>
    (matchLitCI "hồ sơ".toList r2).map fun r3 => (nr.1, r3)

/-- `</h\d+>` at one position. -/
def hsCloseH (cs : List Char) : Option Unit :=
  (matchLitCI "</h".toList cs).bind fun r1 =>
    if (r1.takeWhile isDigitChar).isEmpty then Option.none
    else
      match r1.dropWhile isDigitChar with
      | '>' :: _ => some ()
      | _ => Option.none

/-- `hsctvn_scraper.py:266` —
`<h\d+[^>]*>.*?([\d,\.]+)\s+hồ sơ.*?</h\d+>` (DOTALL): the opening
heading tag, then the leftmost `([\d,\.]+)\s+hồ sơ` whose remainder
still contains a closing heading tag. -/
def hsTotalP5 (cs : List Char) : Option (List Char) :=
  (matchLitCI "<h".toList cs).bind fun r1 =>
    if (r1.takeWhile isDigitChar).isEmpty then Option.none
    else
      match (r1.dropWhile isDigitChar).dropWhile (fun c => c ≠ '>') with
      | '>' :: r4 =>
        searchPos (fun pos =>
          (hsTotalP5Num pos).bind fun pr =>
            (searchPos hsCloseH pr.2).map fun _ => pr.1) r4
      | _ => Option.none

/-- Digits to a natural number (`int()` on a digit string). -/
def natOfDigits (ds : List Char) : Nat :=
  ds.foldl (fun acc c => acc * 10 + (c.toNat - '0'.toNat)) 0

/-- `HSCTVNScraper._get_total_companies` (lines 242-299): try the five
patterns in order with `re.search`; on the first match, drop grouping
commas and dots and convert to an integer; any failure (no pattern
matches, or the group is left empty — `int` raising is caught by the
surrounding handler) yields 0.  The secondary browser re-query of the
rendered body text (lines 279-288) needs a live page and is modelled
as the failing branch. -/
def hsGetTotal (content : List Char) : Nat :=
  let raw :=
    match searchPos hsTotalP1 content with
    | some n => some n
    | Option.none =>
    match searchPos hsTotalP2 content with
    | some n => some n
    | Option.none =>
    match searchPos hsTotalP3 content with
    | some n => some n
    | Option.none =>
    match searchPos hsTotalP4 content with
    | some n => some n
    | Option.none => searchPos hsTotalP5 content
  match raw with
  | Option.none => 0
  | some num =>
    let ds := num.filter fun c => c ≠ ',' && c ≠ '.'
    if ds.isEmpty then 0 else natOfDigits ds

/-- A JSON-decoded Python value, the possible results of
`json.loads` on the Gemini response text. -/
inductive PyVal where
  | none : PyVal
  | pbool (b : Bool) : PyVal
  | num (n : Int) : PyVal
  | str (s : List Char) : PyVal
  | list (l : List PyVal) : PyVal
  | dict (d : List (List Char × PyVal)) : PyVal

/-- Python truthiness of a JSON value. -/
def pyTruthy : PyVal → Bool
  | .none => false
  | .pbool b => b
  | .num n => n != 0
  | .str s => !s.isEmpty
  | .list l => !l.isEmpty
  | .dict d => !d.isEmpty

/-- `dict.get(k)`: the first binding of `k`, defaulting to `None`. -/
def dictGet (d : List (List Char × PyVal)) (k : List Char) : PyVal :=
  match d.find? (fun kv => kv.1 == k) with
  | some kv => kv.2
  | Option.none => .none

/-- `dict.get(k, dflt)`. -/
def dictGetD (d : List (List Char × PyVal)) (k : List Char)
    (dflt : PyVal) : PyVal :=
  match d.find? (fun kv => kv.1 == k) with
  | some kv => kv.2
  | Option.none => dflt

/-- `d[k] = v`: replace the binding of `k`, or append it. -/
def dictSet (d : List (List Char × PyVal)) (k : List Char) (v : PyVal) :
    List (List Char × PyVal) :=
  if d.any (fun kv => kv.1 == k) then
    d.map fun kv => if kv.1 == k then (k, v) else kv
  else d ++ [(k, v)]

def phoneKey : List Char := "phone".toList
def emailKey : List Char := "email".toList
def websiteKey : List Char := "website".toList
def sourceKey : List Char := "source".toList
def businessesKey : List Char := "businesses".toList
def srcAI : List Char := "duckduckgo_ai".toList

/-- The `website`/`source` stamping applied to each accepted object
(`ai_services.py:82-83` and 138-139). -/
def stampBiz (b : List (List Char × PyVal)) (url : List Char) :
    List (List Char × PyVal) :=
  dictSet (dictSet b websiteKey (.str url)) sourceKey (.str srcAI)

/-- `GeminiService.extract_business_info` (`ai_services.py:28-89`) as
a function of the model configuration flag and the decoded response.
`parsed = none` stands for every failure path swallowed by the
`except` clause: the API call raising, an empty or non-JSON response
(`json.loads` raising).  A decoded value that is not an object makes
`data.get` raise, which the same clause turns into `None`. -/
def extractBusinessInfo (modelConfigured : Bool) (parsed : Option PyVal)
    (url : List Char) : Option (List (List Char × PyVal)) :=
  if !modelConfigured then Option.none
  else
    match parsed with
    | some (.dict d) =>
      if pyTruthy (dictGet d phoneKey) || pyTruthy (dictGet d emailKey) then
        some (stampBiz d url)
      else Option.none
    | _ => Option.none

/-- The filtering loop of `extract_multiple_businesses` (lines
134-140): skip objects lacking a truthy phone and email, stamp and
keep the others; a non-object element makes `b.get` raise, so the
whole call degrades to the empty list (`none` here). -/
def extractMultipleAux (url : List Char) :
    List PyVal → Option (List (List (List Char × PyVal)))
  | [] => some []
  | .dict b :: rest =>
    if pyTruthy (dictGet b phoneKey) || pyTruthy (dictGet b emailKey) then
      (extractMultipleAux url rest).map fun l => stampBiz b url :: l
    else extractMultipleAux url rest
  | _ :: _ => Option.none

/-- `GeminiService.extract_multiple_businesses` (`ai_services.py:91-146`).
`result.get('businesses', [])` requires the decoded value to be an
object; iterating a non-list value either runs an empty loop (empty
string or dict) or raises — in every case the result is the empty
list. -/
def extractMultipleBusinesses (modelConfigured : Bool)
    (parsed : Option PyVal) (url : List Char) :
    List (List (List Char × PyVal)) :=
  if !modelConfigured then []
  else
    match parsed with
    | some (.dict d) =>
      match dictGetD d businessesKey (.list []) with
      | .list l => (extractMultipleAux url l).getD []
      | _ => []
    | _ => []

/-- A Google Maps detail-panel record (`scraper.py:157-284`).  The
numeric rating fields are omitted: they are floating point and play
no role in the claims under verification. -/
structure GmBiz where
  name : List Char
  phone : Option (List Char)
  address : Option (List Char)
  website : Option (List Char)
  deriving DecidableEq

/-- One feed tile of the Google Maps results list, with the detail
panel extraction result it would lead to (`None` when extraction
fails or yields no name). -/
structure MapItem where
  hasLink : Bool
  ariaLabel : Option (List Char)
  sponsored : Bool
  detail : Option GmBiz

/-- The UI-placeholder names skipped at `scraper.py:138`. -/
def placeholderNames : List (List Char) :=
  ["Kết quả".toList, "Results".toList]

/-- The item loop of `GoogleMapsScraper._extract_businesses` (lines
102-154): stop at the cap; skip tiles without a link or aria-label,
sponsored tiles, failed extractions, placeholder names, and names
already seen; append the rest. -/
def gmapsFold (mr : Nat) : List MapItem → List GmBiz → List (List Char) → List GmBiz
  | [], acc, _ => acc
  | it :: rest, acc, seen =>
    if mr ≤ acc.length then acc
    else if !it.hasLink then gmapsFold mr rest acc seen
    else if !(optTruthy it.ariaLabel) then gmapsFold mr rest acc seen
    else if it.sponsored then gmapsFold mr rest acc seen
    else
      match it.detail with
      | Option.none => gmapsFold mr rest acc seen
      | some biz =>
        if biz.name.isEmpty then gmapsFold mr rest acc seen
        else if placeholderNames.contains biz.name then
          gmapsFold mr rest acc seen
        else if seen.contains biz.name then gmapsFold mr rest acc seen
        else gmapsFold mr rest (acc ++ [biz]) (biz.name :: seen)

/-- `GoogleMapsScraper._extract_businesses` (lines 68-155): the feed
items are sliced to `max_results * 2` and folded with the per-run
name set. -/
def gmapsExtract (items : List MapItem) (mr : Nat) : List GmBiz :=
  gmapsFold mr (items.take (mr * 2)) [] []

/-- `GoogleMapsScraper.search_businesses` (lines 23-66): the requested
`max_results` is silently clamped to the configured
`MAX_RESULTS_PER_SEARCH` limit before extraction (lines 31-32). -/
def gmapsSearch (requested limit : Nat) (items : List MapItem) : List GmBiz :=
  let mr := if limit < requested then limit else requested
  gmapsExtract items mr

/-- C7.  Registry total-item parsing: on content containing
`tìm thấy 1,021 hồ sơ công ty` the parsed total is 1021, and on
content containing `tìm thấy <label>784</label> hồ sơ` it is 784 —
the comma- and dot-grouped digits are collapsed before conversion. -/
theorem registryTotalParsing_ok :
    hsGetTotal "tìm thấy 1,021 hồ sơ công ty".toList = 1021 ∧
    hsGetTotal "tìm thấy <label>784</label> hồ sơ".toList = 784 := by
  exact ⟨by decide, by decide⟩

/-- The records used in the name-deduplication counterexample: raw
names of length 11 that differ only by case and end in a space. -/
def nameCexB1 : DBiz :=
  ⟨"ABCDEFGHIJ ".toList, Option.none, Option.none, Option.none, [], []⟩

def nameCexB2 : DBiz :=
  ⟨"abcdefghij ".toList, Option.none, Option.none, Option.none, [], []⟩

/-- C2, counterexample.  Two candidates whose raw names are longer
than 10 characters (length 11), differ only by case, and are equal
after lower-casing and trimming, are BOTH accepted by the
deduplicator: the `len(name) > 10` test is applied to the lowered
*trimmed* name (here of length 10), so the second record is not
rejected as the claim states. -/
theorem dedup_admit_claim_cex :
    (nameCexB1.name).length = 11 ∧ (nameCexB2.name).length = 11 ∧
    pyLower nameCexB1.name = pyLower nameCexB2.name ∧
    pyStrip (pyLower nameCexB1.name) = pyStrip (pyLower nameCexB2.name) ∧
    (admitOne ⟨[], []⟩ nameCexB1).1 = true ∧
    (admitOne (admitOne ⟨[], []⟩ nameCexB1).2 nameCexB2).1 = true := by
  exact ⟨by decide, by decide, by decide, by decide, by decide, by decide⟩

/-- C2, amended.  Admitting two candidates with the same non-empty
normalised phone accepts exactly the first and rejects the second;
and admitting two candidates whose lower-cased, trimmed names are
longer than 10 characters and equal (for instance, raw names
differing only by case) accepts the first and rejects the second. -/
theorem dedup_admit_amended :
    (∀ (b1 b2 : DBiz) (p : List Char), b1.phone = some p →
      b2.phone = some p → p ≠ [] →
      (admitOne ⟨[], []⟩ b1).1 = true ∧
      (admitOne (admitOne ⟨[], []⟩ b1).2 b2).1 = false) ∧
    (∀ b1 b2 : DBiz,
      pyStrip (pyLower b1.name) = pyStrip (pyLower b2.name) →
      10 < (pyStrip (pyLower b1.name)).length →
      (admitOne ⟨[], []⟩ b1).1 = true ∧
      (admitOne (admitOne ⟨[], []⟩ b1).2 b2).1 = false) := by
  constructor
  · intro b1 b2 p hb1 hb2 hp
    have hpe : p.isEmpty = false := by
      cases p
      · exact absurd rfl hp
      · rfl
    constructor
    · simp [admitOne, hb1, hpe]
    · have hst : (admitOne ⟨[], []⟩ b1).2.phones = p :: [] := by
        simp [admitOne, hb1, hpe]
      generalize hgen : (admitOne ⟨[], []⟩ b1).2 = st1
      rw [hgen] at hst
      simp [admitOne, hb2, hpe, hst]
  · intro b1 b2 hname hlen
    have hne : (pyStrip (pyLower b1.name)).isEmpty = false := by
      cases he : pyStrip (pyLower b1.name)
      · rw [he] at hlen; simp at hlen
      · rfl
    have hacc : (admitOne ⟨[], []⟩ b1).1 = true := by
      cases hb : b1.phone <;> simp [admitOne, hb]
    refine ⟨hacc, ?_⟩
    have hnames : (admitOne ⟨[], []⟩ b1).2.names =
        pyStrip (pyLower b1.name) :: [] := by
      cases hb : b1.phone <;> simp [admitOne, hb, hne, hlen]
    generalize hgen : (admitOne ⟨[], []⟩ b1).2 = st1
    rw [hgen] at hnames
    have hne2 : (pyStrip (pyLower b2.name)).isEmpty = false := by
      rw [← hname]; exact hne
    simp only [admitOne]
    split
    · rfl
    · rw [if_pos]
      rw [hnames, ← hname]
      simp [hne2, ← hname, hlen, hne]

/-- The records used in the witness for the amended deduplication
behaviour. -/
def dedupW1 : DBiz :=
  ⟨"Shop A".toList, some "0912345678".toList, Option.none, Option.none, [], []⟩

def dedupW2 : DBiz :=
  ⟨"Shop B".toList, some "0912345678".toList, Option.none, Option.none, [], []⟩

def dedupW3 : DBiz :=
  ⟨"Cong Ty TNHH Hai San".toList, Option.none, Option.none, Option.none, [], []⟩

def dedupW4 : DBiz :=
  ⟨"CONG TY TNHH HAI SAN".toList, some "0999999999".toList, Option.none,
    Option.none, [], []⟩

/-- Witness for `dedup_admit_amended` at concrete records. -/
theorem dedup_admit_amended_witness :
    ((admitOne ⟨[], []⟩ dedupW1).1 = true ∧
      (admitOne (admitOne ⟨[], []⟩ dedupW1).2 dedupW2).1 = false) ∧
    ((admitOne ⟨[], []⟩ dedupW3).1 = true ∧
      (admitOne (admitOne ⟨[], []⟩ dedupW3).2 dedupW4).1 = false) :=
  ⟨dedup_admit_amended.1 dedupW1 dedupW2 "0912345678".toList rfl rfl
      (by decide),
    dedup_admit_amended.2 dedupW3 dedupW4 (by decide) (by decide)⟩

/-- Two records never share a (non-null) phone value. -/
def distinctPhonesR (b c : DBiz) : Prop :=
  ∀ p q : List Char, b.phone = some p → c.phone = some q → p ≠ q

/-- Invariant of the deduplicating scrape loop: every phone of an
accumulated record is recorded in the seen set, and accumulated
records have pairwise distinct phones. -/
def PhInv (acc : List DBiz) (st : SeenSt) : Prop :=
  (∀ b ∈ acc, ∀ p, b.phone = some p → p ∈ st.phones) ∧
  List.Pairwise distinctPhonesR acc

theorem admitOne_false_st {st : SeenSt} {b : DBiz}
    (h : (admitOne st b).1 = false) : (admitOne st b).2 = st := by
  simp only [admitOne] at h ⊢
  split at h
  · split
    · rfl
    · simp_all
  · split at h
    · split
      · rfl
      · simp_all
    · simp at h

theorem admitOne_phones_mono (st : SeenSt) (b : DBiz) :
    st.phones ⊆ ((admitOne st b).2).phones := by
  simp only [admitOne]
  split
  · exact fun x hx => hx
  · split
    · exact fun x hx => hx
    · cases hb : b.phone
      · simp
      · simp only
        split
        · exact fun x hx => List.mem_cons_of_mem _ hx
        · exact fun x hx => hx

theorem admitOne_true_phone_mem {st : SeenSt} {b : DBiz} {p : List Char}
    (hb : b.phone = some p) (hp : p ≠ [])
    (h : (admitOne st b).1 = true) : p ∈ ((admitOne st b).2).phones := by
  have hpe : p.isEmpty = false := by
    cases p
    · exact absurd rfl hp
    · rfl
  simp only [admitOne, hb, hpe] at h ⊢
  split at h
  · simp at h
  · rename_i h1
    split at h
    · simp at h
    · rename_i h2
      rw [if_neg h1, if_neg h2]
      simp

theorem admitOne_true_phone_fresh {st : SeenSt} {b : DBiz} {p : List Char}
    (hb : b.phone = some p) (hp : p ≠ [])
    (h : (admitOne st b).1 = true) : p ∉ st.phones := by
  have hpe : p.isEmpty = false := by
    cases p
    · exact absurd rfl hp
    · rfl
  simp only [admitOne, hb, hpe] at h
  intro hmem
  rw [if_pos] at h
  · simp at h
  · simp [List.elem_iff, List.contains, hmem]

theorem swInner_len (mr : Nat) : ∀ (cand acc : List DBiz) (st : SeenSt),
    acc.length ≤ mr → ((swInner mr cand acc st).1).length ≤ mr := by
  intro cand
  induction cand with
  | nil => intro acc st h; simpa [swInner] using h
  | cons b rest ih =>
    intro acc st h
    simp only [swInner]
    split
    · simpa using h
    · rename_i hlt
      have hlt' : acc.length < mr := Nat.lt_of_not_le hlt
      split
      · exact ih _ _ (by simpa using hlt')
      · exact ih _ _ h

theorem swOuter_len (mr : Nat) : ∀ (pgs : List (List DBiz))
    (acc : List DBiz) (st : SeenSt),
    acc.length ≤ mr → (swOuter mr pgs acc st).length ≤ mr := by
  intro pgs
  induction pgs with
  | nil => intro acc st h; simpa [swOuter] using h
  | cons pg rest ih =>
    intro acc st h
    simp only [swOuter]
    split
    · exact h
    · exact ih _ _ (swInner_len mr pg acc st h)

theorem swInner_inv (mr : Nat) : ∀ (cand acc : List DBiz) (st : SeenSt),
    (∀ b ∈ cand, b.phone ≠ some []) → PhInv acc st →
    PhInv (swInner mr cand acc st).1 (swInner mr cand acc st).2 := by
  intro cand
  induction cand with
  | nil => intro acc st _ hinv; simpa [swInner] using hinv
  | cons b rest ih =>
    intro acc st hcand hinv
    have hb : b.phone ≠ some [] := hcand b (List.mem_cons_self ..)
    have hrest : ∀ x ∈ rest, x.phone ≠ some [] :=
      fun x hx => hcand x (List.mem_cons_of_mem _ hx)
    simp only [swInner]
    split
    · exact hinv
    · split
      · rename_i hacc
        refine ih _ _ hrest ⟨?_, ?_⟩
        · intro x hx p hp
          rcases List.mem_append.mp hx with hx | hx
          · exact admitOne_phones_mono st b (hinv.1 x hx p hp)
          · simp only [List.mem_singleton] at hx
            subst hx
            have hpne : p ≠ [] := by
              intro hnil
              exact hb (hnil ▸ hp)
            exact admitOne_true_phone_mem hp hpne hacc
        · refine List.pairwise_append.mpr ⟨hinv.2, List.pairwise_singleton .., ?_⟩
          intro x hx y hy
          simp only [List.mem_singleton] at hy
          subst hy
          intro p q hp hq
          have hqne : q ≠ [] := by
            intro hnil
            exact hb (hnil ▸ hq)
          have h1 : p ∈ st.phones := hinv.1 x hx p hp
          have h2 : q ∉ st.phones := admitOne_true_phone_fresh hq hqne hacc
          intro heq
          exact h2 (heq ▸ h1)
      · rename_i hacc
        have hfalse : (admitOne st b).1 = false := by
          cases hv : (admitOne st b).1
          · rfl
          · exact absurd hv hacc
        rw [admitOne_false_st hfalse]
        exact ih _ _ hrest hinv

theorem swOuter_inv (mr : Nat) : ∀ (pgs : List (List DBiz))
    (acc : List DBiz) (st : SeenSt),
    (∀ pg ∈ pgs, ∀ b ∈ pg, b.phone ≠ some []) → PhInv acc st →
    List.Pairwise distinctPhonesR (swOuter mr pgs acc st) := by
  intro pgs
  induction pgs with
  | nil => intro acc st _ hinv; simpa [swOuter] using hinv.2
  | cons pg rest ih =>
    intro acc st hpgs hinv
    simp only [swOuter]
    split
    · exact hinv.2
    · exact ih _ _ (fun x hx => hpgs x (List.mem_cons_of_mem _ hx))
        (swInner_inv mr pg acc st (hpgs pg (List.mem_cons_self ..)) hinv)

/-- C1.  A Search-Result run returns at most `maxResults` records with
pairwise distinct non-null phones (candidate phones are never the
empty string: the extractor only emits phones of length at least 10),
and a Registry run returns at most `maxResults` records. -/
theorem connector_result_caps (pages : List (List DBiz)) (mr : Nat)
    (h : ∀ pg ∈ pages, ∀ b ∈ pg, b.phone ≠ some []) :
    ((scrapeWebsites pages mr).length ≤ mr ∧
      List.Pairwise distinctPhonesR (scrapeWebsites pages mr)) ∧
    ∀ (α : Type) (total mr' : Nat) (mp : Option Nat) (pgs : Nat → List α),
      ((hsRun total mp mr' pgs).1).length ≤ mr' := by
  refine ⟨⟨swOuter_len mr pages [] ⟨[], []⟩ (by simp), ?_⟩, ?_⟩
  · exact swOuter_inv mr pages [] ⟨[], []⟩ h ⟨by simp, List.Pairwise.nil⟩
  · intro α total mr' mp pgs
    simp only [hsRun]
    split
    · simp
    · simp

/-- The pages used in the witness for `connector_result_caps`. -/
def capsWPages : List (List DBiz) :=
  [[dedupW1, dedupW2], [dedupW4]]

/-- Witness for `connector_result_caps` at concrete pages. -/
theorem connector_result_caps_witness :
    (∀ pg ∈ capsWPages, ∀ b ∈ pg, b.phone ≠ some []) ∧
    (((scrapeWebsites capsWPages 2).length ≤ 2 ∧
      List.Pairwise distinctPhonesR (scrapeWebsites capsWPages 2)) ∧
    ∀ (α : Type) (total mr' : Nat) (mp : Option Nat) (pgs : Nat → List α),
      ((hsRun total mp mr' pgs).1).length ≤ mr') :=
  ⟨by decide, connector_result_caps capsWPages 2 (by decide)⟩

/-- C4.  A page whose text yields zero extracted phones but at least
one extracted email or address produces exactly one fallback
candidate record, carrying the first email and the first address and
no phone. -/
theorem fallbackRecord_ok (emails addrs : List (List Char)) (ctx : PageCtx)
    (h : emails ≠ [] ∨ addrs ≠ []) :
    (buildBusinesses [] emails addrs ctx).length = 1 ∧
    ∀ b ∈ buildBusinesses [] emails addrs ctx,
      b.email = emails.head? ∧ b.address = addrs.head? ∧
        b.phone = Option.none := by
  have hcond : (!emails.isEmpty || !addrs.isEmpty) = true := by
    rcases h with h | h
    · cases emails
      · exact absurd rfl h
      · simp
    · cases addrs
      · exact absurd rfl h
      · simp
  simp [buildBusinesses, hcond]

/-- Witness for `fallbackRecord_ok` at a concrete page. -/
theorem fallbackRecord_ok_witness :
    (["lienhe@shop.vn".toList] ≠ ([] : List (List Char)) ∨
      ([] : List (List Char)) ≠ []) ∧
    ((buildBusinesses [] ["lienhe@shop.vn".toList] []
        ⟨"Shop".toList, [], "http://shop.vn".toList, "shop.vn".toList⟩).length = 1 ∧
      ∀ b ∈ buildBusinesses [] ["lienhe@shop.vn".toList] []
          ⟨"Shop".toList, [], "http://shop.vn".toList, "shop.vn".toList⟩,
        b.email = (["lienhe@shop.vn".toList] : List (List Char)).head? ∧
          b.address = ([] : List (List Char)).head? ∧
          b.phone = Option.none) :=
  ⟨Or.inl (by decide),
    fallbackRecord_ok ["lienhe@shop.vn".toList] []
      ⟨"Shop".toList, [], "http://shop.vn".toList, "shop.vn".toList⟩
      (Or.inl (by decide))⟩

/-- Modelled from the spec: the fallback strategy order of the
Search-Result connector as the spec describes it — AI multi-extraction
first, then AI single extraction, then the deterministic field
records.  The repository contains an AI adapter (`GeminiService` in
`ai_services.py`), but no connector code invokes it, so this order
exists only in the spec; the definition is used to state that claim
against the code. -/
def specFallbackOrder (aiMulti : List DBiz) (aiSingle : Option DBiz)
    (detRecords : List DBiz) : List DBiz :=
  if !aiMulti.isEmpty then aiMulti
  else
    match aiSingle with
    | some b => [b]
    | Option.none => detRecords

/-- C6 as the spec states it: whatever the AI strategies would
return, the per-page records of the connector follow the fallback
order (AI results take precedence; deterministic records are used
only when both AI strategies yield nothing). -/
def aiFallbackClaim : Prop :=
  ∀ (phones emails addrs : List (List Char)) (ctx : PageCtx)
    (aiMulti : List DBiz) (aiSingle : Option DBiz),
    buildBusinesses phones emails addrs ctx =
      specFallbackOrder aiMulti aiSingle
        (buildBusinesses phones emails addrs ctx)

/-- A record an AI strategy could return, different from any
deterministic record of the counterexample page. -/
def aiCexBiz : DBiz :=
  ⟨"AI Shop".toList, some "0988888888".toList, Option.none, Option.none,
    [], []⟩

/-- C6, counterexample.  On a page with no extracted fields the
deterministic records are empty, yet with a non-empty AI
multi-extraction result the claimed fallback order would return that
result; the connector returns the deterministic records regardless,
because `_extract_all_from_website` never invokes the AI adapter. -/
theorem aiFallback_claim_cex : ¬ aiFallbackClaim := by
  intro h
  exact absurd (h [] [] [] ⟨[], [], [], []⟩ [aiCexBiz] Option.none)
    (by decide)

/-- C6, amended.  The per-page extraction of the Search-Result
connector is purely deterministic: no AI strategy is consulted, and
when the page yields phones the records are exactly one per extracted
phone, in extraction order. -/
theorem aiFallback_amended (phones emails addrs : List (List Char))
    (ctx : PageCtx) (h : phones ≠ []) :
    (buildBusinesses phones emails addrs ctx).length = phones.length ∧
    (buildBusinesses phones emails addrs ctx).map (fun b => b.phone) =
      phones.map some := by
  have hne : phones.isEmpty = false := by
    cases phones
    · exact absurd rfl h
    · rfl
  constructor
  · simp [buildBusinesses, hne]
  · simp only [buildBusinesses, hne, Bool.not_false, if_pos]
    rw [List.map_map]
    have : (fun b => DBiz.phone b) ∘
        (fun ie : Nat × List Char =>
          ({ name := pyOr (if phones.length = 1 then ctx.title
              else ctx.title ++ " #".toList ++ natToChars (ie.1 + 1)) ctx.netloc
             phone := some ie.2
             email := emails.get? ie.1
             address := addrs.get? ie.1
             website := ctx.url
             description := ctx.snippet } : DBiz)) =
        (fun ie : Nat × List Char => some ie.2) := rfl
    rw [this]
    have h2 : (fun ie : Nat × List Char => some ie.2) =
        (some ∘ Prod.snd) := rfl
    rw [h2, ← List.map_map, List.enum_map_snd]

/-- Witness for `aiFallback_amended` at a concrete page. -/
theorem aiFallback_amended_witness :
    (["0911111111".toList, "0922222222".toList] ≠ ([] : List (List Char))) ∧
    ((buildBusinesses ["0911111111".toList, "0922222222".toList] [] []
        ⟨"Top".toList, [], "http://t.vn".toList, "t.vn".toList⟩).length = 2 ∧
      (buildBusinesses ["0911111111".toList, "0922222222".toList] [] []
        ⟨"Top".toList, [], "http://t.vn".toList, "t.vn".toList⟩).map
          (fun b => b.phone) =
        (["0911111111".toList, "0922222222".toList] : List (List Char)).map
          some) :=
  ⟨by decide,
    aiFallback_amended ["0911111111".toList, "0922222222".toList] [] []
      ⟨"Top".toList, [], "http://t.vn".toList, "t.vn".toList⟩ (by decide)⟩

theorem hsLoop_fetch_count {α : Type} (pages : Nat → List α) (mr : Nat)
    (hpg : ∀ i, (pages i).length ≤ 12) (hmr : 1 ≤ mr) :
    ∀ (l : List Nat) (acc : List α) (f j : Nat),
      acc.length ≤ 12 * j → j + l.length ≤ (mr + 11) / 12 →
      (hsLoop pages mr l acc f).2 = f + l.length := by
  intro l
  induction l with
  | nil => intro acc f j _ _; simp [hsLoop]
  | cons p rest ih =>
    intro acc f j hacc hcount
    have hd : ((mr + 11) / 12) * 12 ≤ mr + 11 := Nat.div_mul_le_self _ _
    have hd1 : 1 ≤ (mr + 11) / 12 := by
      have : 12 ≤ mr + 11 := by omega
      exact Nat.one_le_div_iff (by norm_num) |>.mpr this
    have hlt : acc.length < mr := by
      simp only [List.length_cons] at hcount
      have hj : j ≤ (mr + 11) / 12 - 1 := by omega
      have : 12 * j ≤ 12 * ((mr + 11) / 12 - 1) :=
        Nat.mul_le_mul_left _ hj
      omega
    simp only [hsLoop, if_neg (Nat.not_le.mpr hlt)]
    have hrec := ih (acc ++ pages p) (f + 1) (j + 1)
      (by
        rw [List.length_append]
        have := hpg p
        omega)
      (by
        simp only [List.length_cons] at hcount
        omega)
    rw [hrec]
    simp only [List.length_cons]
    omega

theorem hsLoop_stop {α : Type} (pages : Nat → List α) (mr : Nat)
    (l : List Nat) (acc : List α) (f : Nat) (h : mr ≤ acc.length) :
    (hsLoop pages mr l acc f).2 = f := by
  cases l with
  | nil => rfl
  | cons p rest => simp [hsLoop, h]

/-- C8.  With at least one record on the date, a positive
`maxResults`, a positive `maxPages` when given, and pages of at most
`itemsPerPage = 12` records, the number of pages a registry run
fetches equals `min(ceil(total/12), maxPages, ceil(maxResults/12))`
(without the `maxPages` term when it is not given); and once
`maxResults` records are accumulated, no further page is fetched. -/
theorem registry_pagination_ok :
    (∀ (α : Type) (total mr : Nat) (mp : Option Nat) (pages : Nat → List α),
      1 ≤ total → 1 ≤ mr →
      (mp = Option.none ∨ ∃ k, mp = some k ∧ 1 ≤ k) →
      (∀ i, (pages i).length ≤ 12) →
      (hsRun total mp mr pages).2 =
        match mp with
        | some k => min (min ((total + 11) / 12) k) ((mr + 11) / 12)
        | Option.none => min ((total + 11) / 12) ((mr + 11) / 12)) ∧
    (∀ (α : Type) (total mr : Nat) (mp : Option Nat) (pages : Nat → List α),
      total ≠ 0 → mr ≤ (pages 1).length → (hsRun total mp mr pages).2 = 1) := by
  constructor
  · intro α total mr mp pages htotal hmr hmp hpg
    have htz : ¬ total = 0 := by omega
    have hceil1 : 1 ≤ (total + 11) / 12 := by
      have : 12 ≤ total + 11 := by omega
      exact Nat.one_le_div_iff (by norm_num) |>.mpr this
    have hceil2 : 1 ≤ (mr + 11) / 12 := by
      have : 12 ≤ mr + 11 := by omega
      exact Nat.one_le_div_iff (by norm_num) |>.mpr this
    have hpn1 : 1 ≤ hsPagesNeeded total mp mr := by
      rcases hmp with hmp | ⟨k, hmp, hk⟩ <;> subst hmp
      · simp only [hsPagesNeeded]
        omega
      · simp only [hsPagesNeeded, if_pos (by omega : k ≠ 0)]
        omega
    have hpnle : hsPagesNeeded total mp mr ≤ (mr + 11) / 12 := by
      cases mp <;> simp [hsPagesNeeded]
    have hcount := hsLoop_fetch_count pages mr hpg hmr
      (List.range' 2 (hsPagesNeeded total mp mr - 1)) (pages 1) 1 1
      (by have := hpg 1; omega)
      (by rw [List.length_range']; omega)
    simp only [hsRun, if_neg htz]
    rw [hcount, List.length_range']
    rcases hmp with hmp | ⟨k, hmp, hk⟩ <;> subst hmp
    · simp only [hsPagesNeeded] at hpn1 ⊢
      omega
    · simp only [hsPagesNeeded, if_pos (by omega : k ≠ 0)] at hpn1 ⊢
      omega
  · intro α total mr mp pages htotal hcap
    simp only [hsRun, if_neg htotal]
    exact hsLoop_stop pages mr _ (pages 1) 1 hcap

/-- Witness for `registry_pagination_ok`: the end-to-end instance of
the spec — `maxPages = 2`, `itemsPerPage = 12`, `totalItems = 30`,
`maxResults = 100` fetches exactly 2 pages (so at most 2, although 3
would be needed for all 30 records), and a first page already holding
`maxResults` records stops the run after 1 fetch. -/
theorem registry_pagination_ok_witness :
    ((1 ≤ 30 ∧ 1 ≤ 100 ∧
        ((some 2 : Option Nat) = Option.none ∨
          ∃ k, (some 2 : Option Nat) = some k ∧ 1 ≤ k) ∧
        ∀ i : Nat, ((fun _ : Nat => List.range 12) i).length ≤ 12) ∧
      (hsRun 30 (some 2) 100 (fun _ : Nat => List.range 12)).2 = 2) ∧
    ((30 : Nat) ≠ 0 ∧ (2 : Nat) ≤ ((fun _ : Nat => List.range 2) 1).length ∧
      (hsRun 30 (some 12) 2 (fun _ : Nat => List.range 2)).2 = 1) := by
  constructor
  · constructor
    · exact ⟨by decide, by decide, Or.inr ⟨2, rfl, by decide⟩,
        fun i => by simp⟩
    · have h := registry_pagination_ok.1 Nat 30 100 (some 2)
        (fun _ => List.range 12) (by decide) (by decide)
        (Or.inr ⟨2, rfl, by decide⟩) (fun i => by simp)
      simpa using h
  · exact ⟨by decide, by simp,
      registry_pagination_ok.2 Nat 30 2 (some 12)
        (fun _ => List.range 2) (by decide) (by simp)⟩

theorem dictGet_cons_pos {x : List Char × PyVal}
    {l : List (List Char × PyVal)} {k : List Char}
    (h : (x.1 == k) = true) : dictGet (x :: l) k = x.2 := by
  simp [dictGet, List.find?_cons, h]

theorem dictGet_cons_neg {x : List Char × PyVal}
    {l : List (List Char × PyVal)} {k : List Char}
    (h : (x.1 == k) = false) : dictGet (x :: l) k = dictGet l k := by
  simp [dictGet, List.find?_cons, h]

theorem dictGet_append_single (d : List (List Char × PyVal))
    (k k' : List Char) (v : PyVal) (hne : k ≠ k') :
    dictGet (d ++ [(k', v)]) k = dictGet d k := by
  induction d with
  | nil =>
    have hf : (k' == k) = false := by
      simp only [beq_eq_false_iff_ne]
      exact fun he => hne he.symm
    simpa [dictGet, List.find?_cons] using hf ▸ rfl
  | cons kv rest ih =>
    by_cases h1 : (kv.1 == k) = true
    · rw [List.cons_append, dictGet_cons_pos h1, dictGet_cons_pos h1]
    · have h1' : (kv.1 == k) = false := by
        cases hv : (kv.1 == k)
        · rfl
        · exact absurd hv h1
      rw [List.cons_append, dictGet_cons_neg h1', dictGet_cons_neg h1', ih]

theorem dictGet_map_set (d : List (List Char × PyVal))
    (k k' : List Char) (v : PyVal) (hne : k ≠ k') :
    dictGet (d.map fun kv => if kv.1 == k' then (k', v) else kv) k =
      dictGet d k := by
  induction d with
  | nil => rfl
  | cons kv rest ih =>
    rw [List.map_cons]
    by_cases h1 : (kv.1 == k') = true
    · rw [if_pos h1]
      have hkv : kv.1 = k' := by simpa using h1
      have hfk : (k' == k) = false := by
        simp only [beq_eq_false_iff_ne]
        exact fun he => hne he.symm
      have hok : (kv.1 == k) = false := by rw [hkv]; exact hfk
      rw [dictGet_cons_neg hfk, dictGet_cons_neg hok, ih]
    · rw [if_neg h1]
      by_cases h2 : (kv.1 == k) = true
      · rw [dictGet_cons_pos h2, dictGet_cons_pos h2]
      · have h2' : (kv.1 == k) = false := by
          cases hv : (kv.1 == k)
          · rfl
          · exact absurd hv h2
        rw [dictGet_cons_neg h2', dictGet_cons_neg h2', ih]

theorem dictGet_dictSet_ne (d : List (List Char × PyVal))
    (k k' : List Char) (v : PyVal) (hne : k ≠ k') :
    dictGet (dictSet d k' v) k = dictGet d k := by
  simp only [dictSet]
  split
  · exact dictGet_map_set d k k' v hne
  · exact dictGet_append_single d k k' v hne

/-- Stamping `website` and `source` leaves the other fields intact. -/
theorem stampBiz_get (b : List (List Char × PyVal)) (url k : List Char)
    (hk1 : k ≠ websiteKey) (hk2 : k ≠ sourceKey) :
    dictGet (stampBiz b url) k = dictGet b k := by
  simp only [stampBiz]
  rw [dictGet_dictSet_ne _ _ _ _ hk2, dictGet_dictSet_ne _ _ _ _ hk1]

theorem extractMultipleAux_mem (url : List Char) :
    ∀ (l : List PyVal) (res : List (List (List Char × PyVal))),
    extractMultipleAux url l = some res → ∀ b ∈ res,
    pyTruthy (dictGet b phoneKey) = true ∨
      pyTruthy (dictGet b emailKey) = true := by
  intro l
  induction l with
  | nil =>
    intro res h b hb
    simp only [extractMultipleAux, Option.some.injEq] at h
    subst h
    simp at hb
  | cons v rest ih =>
    intro res h b hb
    cases v with
    | dict b0 =>
      simp only [extractMultipleAux] at h
      split at h
      · rename_i hcond
        cases hrec : extractMultipleAux url rest with
        | none => rw [hrec] at h; simp at h
        | some res' =>
          rw [hrec] at h
          simp only [Option.map_some', Option.some.injEq] at h
          subst h
          rcases List.mem_cons.mp hb with hb | hb
          · subst hb
            rw [stampBiz_get b0 url phoneKey (by decide) (by decide),
              stampBiz_get b0 url emailKey (by decide) (by decide)]
            exact Bool.or_eq_true _ _ ▸ hcond
          · exact ih res' hrec b hb
      · exact ih res h b hb
    | none => simp [extractMultipleAux] at h
    | pbool bb => simp [extractMultipleAux] at h
    | num n => simp [extractMultipleAux] at h
    | str s => simp [extractMultipleAux] at h
    | list ll => simp [extractMultipleAux] at h

/-- C5.  The AI Extractor Adapter never throws outward: with no model
configured or with a failed or non-object response both entry points
return the empty result; and every object either entry point does
return carries a truthy `phone` or a truthy `email`. -/
theorem geminiAdapter_ok :
    (∀ (parsed : Option PyVal) (url : List Char),
      extractBusinessInfo false parsed url = Option.none) ∧
    (∀ (mc : Bool) (url : List Char),
      extractBusinessInfo mc Option.none url = Option.none) ∧
    (∀ (mc : Bool) (parsed : Option PyVal) (url : List Char)
        (d : List (List Char × PyVal)),
      extractBusinessInfo mc parsed url = some d →
      pyTruthy (dictGet d phoneKey) = true ∨
        pyTruthy (dictGet d emailKey) = true) ∧
    (∀ (parsed : Option PyVal) (url : List Char),
      extractMultipleBusinesses false parsed url = []) ∧
    (∀ (mc : Bool) (url : List Char),
      extractMultipleBusinesses mc Option.none url = []) ∧
    (∀ (mc : Bool) (parsed : Option PyVal) (url : List Char)
        (b : List (List Char × PyVal)),
      b ∈ extractMultipleBusinesses mc parsed url →
      pyTruthy (dictGet b phoneKey) = true ∨
        pyTruthy (dictGet b emailKey) = true) := by
  refine ⟨?_, ?_, ?_, ?_, ?_, ?_⟩
  · intro parsed url
    simp [extractBusinessInfo]
  · intro mc url
    cases mc <;> simp [extractBusinessInfo]
  · intro mc parsed url d h
    cases mc
    · simp [extractBusinessInfo] at h
    · cases parsed with
      | none => simp [extractBusinessInfo] at h
      | some v =>
        cases v with
        | dict d0 =>
          simp only [extractBusinessInfo, Bool.not_true] at h
          simp only [Bool.false_eq_true, if_false] at h
          split at h
          · rename_i hcond
            simp only [Option.some.injEq] at h
            subst h
            rw [stampBiz_get d0 url phoneKey (by decide) (by decide),
              stampBiz_get d0 url emailKey (by decide) (by decide)]
            exact Bool.or_eq_true _ _ ▸ hcond
          · simp at h
        | none => simp [extractBusinessInfo] at h
        | pbool bb => simp [extractBusinessInfo] at h
        | num n => simp [extractBusinessInfo] at h
        | str s => simp [extractBusinessInfo] at h
        | list ll => simp [extractBusinessInfo] at h
  · intro parsed url
    simp [extractMultipleBusinesses]
  · intro mc url
    cases mc <;> simp [extractMultipleBusinesses]
  · intro mc parsed url b hb
    cases mc
    · simp [extractMultipleBusinesses] at hb
    · cases parsed with
      | none => simp [extractMultipleBusinesses] at hb
      | some v =>
        cases v with
        | dict d0 =>
          simp only [extractMultipleBusinesses, Bool.not_true,
            Bool.false_eq_true, if_false] at hb
          rcases hbv : dictGetD d0 businessesKey (.list []) with
            _ | _ | _ | _ | ll | _ <;> rw [hbv] at hb <;> try simp at hb
          cases haux : extractMultipleAux url ll with
          | none => rw [haux] at hb; simp at hb
          | some res =>
            rw [haux] at hb
            simp only [Option.getD_some] at hb
            exact extractMultipleAux_mem url ll res haux b hb
        | none => simp [extractMultipleBusinesses] at hb
        | pbool bb => simp [extractMultipleBusinesses] at hb
        | num n => simp [extractMultipleBusinesses] at hb
        | str s => simp [extractMultipleBusinesses] at hb
        | list ll => simp [extractMultipleBusinesses] at hb

/-- The decoded object used in the witness for `geminiAdapter_ok`. -/
def geminiWIn : List (List Char × PyVal) :=
  [(phoneKey, .str "0911222333".toList),
    ("name".toList, .str "Shop".toList)]

/-- Witness for `geminiAdapter_ok` at a concrete decoded response. -/
theorem geminiAdapter_ok_witness :
    extractBusinessInfo true (some (.dict geminiWIn)) "http://a.vn".toList =
      some (stampBiz geminiWIn "http://a.vn".toList) ∧
    (pyTruthy (dictGet (stampBiz geminiWIn "http://a.vn".toList) phoneKey) =
        true ∨
      pyTruthy (dictGet (stampBiz geminiWIn "http://a.vn".toList) emailKey) =
        true) :=
  ⟨rfl, geminiAdapter_ok.2.2.1 true (some (.dict geminiWIn))
    "http://a.vn".toList (stampBiz geminiWIn "http://a.vn".toList) rfl⟩

theorem gmapsFold_len (mr : Nat) : ∀ (items : List MapItem)
    (acc : List GmBiz) (seen : List (List Char)),
    acc.length ≤ mr → (gmapsFold mr items acc seen).length ≤ mr := by
  intro items
  induction items with
  | nil => intro acc seen h; simpa [gmapsFold] using h
  | cons it rest ih =>
    intro acc seen h
    simp only [gmapsFold]
    split
    · exact h
    · rename_i hlt
      have hlt' : acc.length < mr := Nat.lt_of_not_le hlt
      split
      · exact ih _ _ h
      · split
        · exact ih _ _ h
        · split
          · exact ih _ _ h
          · split
            · exact ih _ _ h
            · split
              · exact ih _ _ h
              · split
                · exact ih _ _ h
                · split
                  · exact ih _ _ h
                  · refine ih _ _ ?_
                    simp only [List.length_append, List.length_cons,
                      List.length_nil]
                    omega

/-- C10.  A Listing-connector search requesting more than the
configured limit is not rejected: it proceeds with the requested
value silently replaced by the limit, and the returned list never
exceeds the limit. -/
theorem gmapsSearch_clamps (requested limit : Nat) (items : List MapItem)
    (h : limit < requested) :
    gmapsSearch requested limit items = gmapsExtract items limit ∧
    (gmapsSearch requested limit items).length ≤ limit := by
  have he : gmapsSearch requested limit items = gmapsExtract items limit := by
    simp [gmapsSearch, if_pos h]
  refine ⟨he, ?_⟩
  rw [he]
  exact gmapsFold_len limit _ [] [] (by simp)

/-- Feed tiles used in the witness for `gmapsSearch_clamps`. -/
def gmW1 : MapItem :=
  ⟨true, some "Shop A".toList, false,
    some ⟨"Shop A".toList, Option.none, Option.none, Option.none⟩⟩

def gmW2 : MapItem :=
  ⟨true, some "Shop B".toList, false,
    some ⟨"Shop B".toList, Option.none, Option.none, Option.none⟩⟩

/-- Witness for `gmapsSearch_clamps` at a concrete feed. -/
theorem gmapsSearch_clamps_witness :
    (1 : Nat) < 5 ∧
    (gmapsSearch 5 1 [gmW1, gmW2] = gmapsExtract [gmW1, gmW2] 1 ∧
      (gmapsSearch 5 1 [gmW1, gmW2]).length ≤ 1) :=
  ⟨by decide, gmapsSearch_clamps 5 1 [gmW1, gmW2] (by decide)⟩
